import Mathlib

/-!
Verification of the mutex/benchmark repository.

The development shallowly embeds the three HTTP servers
(`bad_server.go` with a mutex held by `defer` across the whole handler,
`cmd/good_server/good_server.go` with two minimal critical sections, and
the `sync.Map` server) together with the benchmark/measurement harness
(`benchmarkServer`, `measureAverageLatency`).  Machine integers (`int`,
`int64`) are modelled as `Int` with explicit two's-complement wrapping
where an overflow could matter; Go's runtime panic on integer division
by zero is modelled with `Except`.
-/

/-! ## Go integer primitives -/

/-- Two's-complement wrap-around of a 64-bit signed integer
(Go `int`/`int64` on a 64-bit platform). -/
def wrap64 (x : Int) : Int := (x + 2 ^ 63) % 2 ^ 64 - 2 ^ 63

/-- `wrap64` is the identity on the representable range. -/
theorem wrap64_eq_self {x : Int} (h₁ : -(2 ^ 63) ≤ x) (h₂ : x < 2 ^ 63) :
    wrap64 x = x := by
  unfold wrap64
  have h0 : (0 : Int) ≤ x + 2 ^ 63 := by omega
  have hlt : x + 2 ^ 63 < 2 ^ 64 := by omega
  rw [Int.emod_eq_of_lt h0 hlt]
  omega

/-- A Go runtime panic relevant to this code base. -/
inductive GoPanic : Type
  | divideByZero
deriving DecidableEq, Repr

/-- Go integer division (`a / b`): truncated toward zero, panics on a
zero divisor. -/
def goDiv (a b : Int) : Except GoPanic Int :=
  if b = 0 then .error .divideByZero else .ok (Int.tdiv a b)

/-! ## Shared data model

`DataStruct` is the record type of `good_server.go` and of the
`sync.Map` server (identifier, name, active flag, access counter,
last-modified timestamp; the timestamp is an abstract `Nat`). -/

structure DataStruct : Type where
  identifier : String
  name : String
  isActive : Bool
  counter : Int
  lastModified : Nat
deriving DecidableEq, Repr

/-- Association list acting as the Go map: update in place if the key is
present, otherwise append the new binding. -/
def upsert {κ α : Type} [DecidableEq κ] : List (κ × α) → κ → α → List (κ × α)
  | [], k, v => [(k, v)]
  | (k', v') :: rest, k, v =>
    if k' = k then (k, v) :: rest else (k', v') :: upsert rest k v

/-- Lookup in the association-list map. -/
def lookupAL {κ α : Type} [DecidableEq κ] : List (κ × α) → κ → Option α
  | [], _ => none
  | (k', v') :: rest, k => if k' = k then some v' else lookupAL rest k

/-- The key set of the map, as a list. -/
def keysOf {κ α : Type} (m : List (κ × α)) : List κ := m.map Prod.fst

theorem keysOf_upsert {κ α : Type} [DecidableEq κ] (m : List (κ × α)) (k : κ) (v : α) :
    keysOf (upsert m k v) = if k ∈ keysOf m then keysOf m else keysOf m ++ [k] := by
  induction m with
  | nil => simp [upsert, keysOf]
  | cons hd tl ih =>
    obtain ⟨k', v'⟩ := hd
    by_cases hk : k' = k
    · subst hk
      simp [upsert, keysOf]
    · have hkk : ¬k = k' := fun h => hk h.symm
      simp only [upsert, if_neg hk, keysOf, List.map_cons] at ih ⊢
      rw [ih]
      by_cases hmem : k ∈ List.map Prod.fst tl <;>
        simp [hmem, hkk, List.mem_cons]

theorem mem_keysOf_upsert_of_mem {κ α : Type} [DecidableEq κ] (m : List (κ × α))
    (k k₀ : κ) (v : α) (h : k₀ ∈ keysOf m) : k₀ ∈ keysOf (upsert m k v) := by
  rw [keysOf_upsert]
  by_cases hmem : k ∈ keysOf m <;> simp [hmem, h]

/-- A fresh-key upsert appends the new binding. -/
theorem upsert_of_not_mem {κ α : Type} [DecidableEq κ] (m : List (κ × α)) (k : κ)
    (v : α) (h : k ∉ keysOf m) : upsert m k v = m ++ [(k, v)] := by
  induction m with
  | nil => rfl
  | cons hd tl ih =>
    obtain ⟨k', v'⟩ := hd
    simp only [keysOf, List.map_cons, List.mem_cons] at h
    push_neg at h
    simp only [upsert, if_neg (fun hh : k' = k => h.1 hh.symm), List.cons_append,
      List.cons.injEq, true_and]
    exact ih h.2

/-- Lookup of a fresh appended binding. -/
theorem lookupAL_append_self {κ α : Type} [DecidableEq κ] (m : List (κ × α)) (k : κ)
    (v : α) (h : k ∉ keysOf m) : lookupAL (m ++ [(k, v)]) k = some v := by
  induction m with
  | nil => simp [lookupAL]
  | cons hd tl ih =>
    obtain ⟨k', v'⟩ := hd
    simp only [keysOf, List.map_cons, List.mem_cons] at h
    push_neg at h
    simp only [List.cons_append, lookupAL, if_neg (fun hh : k' = k => h.1 hh.symm)]
    exact ih h.2

/-! ## The repositories

`Repo` models the `Repository` of `good_server.go` (mutex-protected
`counter int` and `data map[string]*DataStruct`) and, with the same
sequential atomic operations, the `sync.Map` server's repository
(`counter int64` updated by `atomic.AddInt64`, `data sync.Map`).
`BadRepo` models the `Repository` of `bad_server.go`
(`data map[string]int`). -/

structure Repo : Type where
  counter : Int
  data : List (String × DataStruct)
deriving DecidableEq, Repr

/-- `NewRepository()`: zero counter, empty map. -/
def newRepository : Repo := ⟨0, []⟩

structure BadRepo : Type where
  counter : Int
  data : List (String × Int)
deriving DecidableEq, Repr

def newBadRepository : BadRepo := ⟨0, []⟩

/-- Id allocation: `r.counter++; currentCounter := r.counter` (good/bad
servers under the mutex) and `atomic.AddInt64(&r.counter, 1)` (sync.Map
server).  Returns the updated repository and the allocated id. -/
def recordRequest (r : Repo) : Repo × Int :=
  let c := wrap64 (r.counter + 1)
  ({ r with counter := c }, c)

/-- `r.data[key] = v` (map upsert / `sync.Map.Store`). -/
def storeRec (r : Repo) (k : String) (v : DataStruct) : Repo :=
  { r with data := upsert r.data k v }

/-- `stats()` as served by `StatsHandler`: total requests and map size. -/
def stats (r : Repo) : Int × Nat := (r.counter, r.data.length)

/-! ## The synthetic workload -/

/-- The CPU loop `for i := 0; i < n; i++ { result += i }`. -/
def cpuLoop (n : Nat) : Int :=
  (List.range n).foldl (fun acc i => acc + (i : Int)) 0

/-- The fixed bound used by all three handlers. -/
def cpuResult : Int := cpuLoop 1000000

/-! ## Handler record construction (good and sync.Map servers) -/

/-- `fmt.Sprintf("request_%d", currentCounter)`. -/
def mkKey (i : Int) : String := "request_" ++ toString i

/-- `fmt.Sprintf("Request %d", currentCounter)`. -/
def mkName (i : Int) : String := "Request " ++ toString i

/-- The `DataStruct` literal written by `GoodHandler` (lines 106-112) and
by `SyncMapHandler` (lines 320-326): identifier = key, display name,
active, CPU result as counter, current time. -/
def mkRecord (i : Int) (result : Int) (now : Nat) : DataStruct :=
  ⟨mkKey i, mkName i, true, result, now⟩

/-- The per-entry deep copy performed by the snapshot loops of
`GoodHandler` (lines 82-91) and `SyncMapHandler` (lines 295-307). -/
def copyStruct (v : DataStruct) : DataStruct :=
  ⟨v.identifier, v.name, v.isActive, v.counter, v.lastModified⟩

/-- The snapshot map copy: a fresh map holding a deep copy of every
entry. -/
def snapshotCopy (m : List (String × DataStruct)) : List (String × DataStruct) :=
  m.map (fun kv => (kv.1, copyStruct kv.2))

/-- One whole `GoodHandler` / `SyncMapHandler` invocation, sequentially:
allocate the id, copy the snapshot, sleep, run the CPU loop, store the
new record.  Returns the new repository state and the response fields
(id and result). -/
def goodHandle (r : Repo) (now : Nat) : Repo × Int × Int :=
  let (r₁, currentCounter) := recordRequest r
  let _dataCopy := snapshotCopy r₁.data
  let result := cpuResult
  let key := mkKey currentCounter
  (storeRec r₁ key (mkRecord currentCounter result now), currentCounter, result)

/-- One whole `BadHandler` invocation, sequentially: the same steps on
the `map[string]int` repository, storing the bare CPU result. -/
def badHandle (r : BadRepo) : BadRepo × Int × Int :=
  let currentCounter := wrap64 (r.counter + 1)
  let r₁ : BadRepo := { r with counter := currentCounter }
  let _dataCopy := r₁.data
  let result := cpuResult
  ({ r₁ with data := upsert r₁.data (mkKey currentCounter) result }, currentCounter, result)

/-! ## Injectivity of the decimal key `fmt.Sprintf("request_%d", i)`

The handlers key records by the decimal rendering of the allocated id.
Distinctness of keys reduces to injectivity of `Nat.repr`, proved here by
relating core's `Nat.toDigitsCore` to Mathlib's `Nat.digits`. -/

theorem digitChar_inj_lt :
    ∀ a < 10, ∀ b < 10, Nat.digitChar a = Nat.digitChar b → a = b := by decide

theorem map_digitChar_inj :
    ∀ l₁ l₂ : List Nat, (∀ x ∈ l₁, x < 10) → (∀ x ∈ l₂, x < 10) →
      l₁.map Nat.digitChar = l₂.map Nat.digitChar → l₁ = l₂ := by
  intro l₁
  induction l₁ with
  | nil =>
    intro l₂ _ _ h
    cases l₂ with
    | nil => rfl
    | cons b t => simp at h
  | cons a t ih =>
    intro l₂ h₁ h₂ h
    cases l₂ with
    | nil => simp at h
    | cons b t' =>
      simp only [List.map_cons, List.cons.injEq] at h
      have ha : a < 10 := h₁ a (List.mem_cons_self a t)
      have hb : b < 10 := h₂ b (List.mem_cons_self b t')
      have hab : a = b := digitChar_inj_lt a ha b hb h.1
      have ht : t = t' := ih t'
        (fun x hx => h₁ x (List.mem_cons_of_mem a hx))
        (fun x hx => h₂ x (List.mem_cons_of_mem b hx)) h.2
      rw [hab, ht]

/-- `Nat.toDigitsCore` with enough fuel produces the most-significant-first
decimal digit characters of `n`. -/
theorem toDigitsCore_eq_digits (fuel : Nat) :
    ∀ n ds, 0 < n → n < fuel →
      Nat.toDigitsCore 10 fuel n ds
        = ((Nat.digits 10 n).map Nat.digitChar).reverse ++ ds := by
  induction fuel with
  | zero => intro n ds _ h; omega
  | succ fuel ih =>
    intro n ds hpos hlt
    have hdig : Nat.digits 10 n = n % 10 :: Nat.digits 10 (n / 10) :=
      Nat.digits_def' (by norm_num) hpos
    by_cases hq : n / 10 = 0
    · have : Nat.digits 10 n = [n % 10] := by rw [hdig, hq]; simp
      simp [Nat.toDigitsCore, hq, this]
    · have hqpos : 0 < n / 10 := Nat.pos_of_ne_zero hq
      have hqlt : n / 10 < fuel := by
        have : n / 10 < n := Nat.div_lt_self hpos (by norm_num)
        omega
      have := ih (n / 10) (Nat.digitChar (n % 10) :: ds) hqpos hqlt
      simp only [Nat.toDigitsCore, hq, if_false]
      rw [this, hdig]
      simp [List.append_assoc]

/-- For positive `n`, `Nat.repr` renders exactly the decimal digits of
`n`, most significant first. -/
theorem repr_data_of_pos {n : Nat} (hn : 0 < n) :
    (Nat.repr n).data = ((Nat.digits 10 n).map Nat.digitChar).reverse := by
  show (Nat.toDigits 10 n).asString.data = _
  rw [Nat.toDigits, toDigitsCore_eq_digits (n + 1) n [] hn (Nat.lt_succ_self n)]
  simp [List.asString]

/-- `Nat.repr` is injective on positive naturals. -/
theorem repr_inj_pos {m n : Nat} (hm : 0 < m) (hn : 0 < n)
    (h : Nat.repr m = Nat.repr n) : m = n := by
  have hdata := congrArg String.data h
  rw [repr_data_of_pos hm, repr_data_of_pos hn] at hdata
  have hmap := List.reverse_injective hdata
  have hdig : Nat.digits 10 m = Nat.digits 10 n :=
    map_digitChar_inj _ _
      (fun x hx => Nat.digits_lt_base (by norm_num) hx)
      (fun x hx => Nat.digits_lt_base (by norm_num) hx) hmap
  have := congrArg (Nat.ofDigits 10) hdig
  rwa [Nat.ofDigits_digits, Nat.ofDigits_digits] at this

theorem string_append_data (s t : String) : (s ++ t).data = s.data ++ t.data := by
  cases s; cases t; rfl

theorem string_append_left_cancel {s t₁ t₂ : String} (h : s ++ t₁ = s ++ t₂) :
    t₁ = t₂ := by
  have hd := congrArg String.data h
  rw [string_append_data, string_append_data] at hd
  have hdd := List.append_cancel_left hd
  cases t₁; cases t₂; exact congrArg String.mk hdd

theorem toString_int_natCast (m : Nat) : toString ((m : Nat) : Int) = Nat.repr m := rfl

/-- The record key is injective on positive ids. -/
theorem mkKey_inj {i j : Int} (hi : 1 ≤ i) (hj : 1 ≤ j) (h : mkKey i = mkKey j) :
    i = j := by
  have hs : toString i = toString j := string_append_left_cancel h
  obtain ⟨m, rfl⟩ : ∃ m : Nat, i = (m : Int) :=
    ⟨i.toNat, (Int.toNat_of_nonneg (by omega)).symm⟩
  obtain ⟨n, rfl⟩ : ∃ n : Nat, j = (n : Int) :=
    ⟨j.toNat, (Int.toNat_of_nonneg (by omega)).symm⟩
  rw [toString_int_natCast, toString_int_natCast] at hs
  have hm : 0 < m := by omega
  have hn : 0 < n := by omega
  exact congrArg (fun k : Nat => (k : Int)) (repr_inj_pos hm hn hs)

/-! ## C1: trace model of the shared repository

A trace interleaves the two state-changing atomic operations the
handlers perform on the repository: id allocation (`r.counter++` under
the mutex, or `atomic.AddInt64`) and a map store.  `runOps` returns the
final state together with the ids handed out, in order. -/

inductive RepoOp : Type
  | record : RepoOp
  | storeOp (k : String) (v : DataStruct) : RepoOp
deriving DecidableEq, Repr

def applyOp (r : Repo) : RepoOp → Repo × List Int
  | .record => let p := recordRequest r; (p.1, [p.2])
  | .storeOp k v => (storeRec r k v, [])

def runOps (r : Repo) : List RepoOp → Repo × List Int
  | [] => (r, [])
  | op :: rest =>
    let p := applyOp r op
    let q := runOps p.1 rest
    (q.1, p.2 ++ q.2)

def isRecordOp : RepoOp → Bool
  | .record => true
  | .storeOp _ _ => false

/-- Number of id allocations in a trace. -/
def countRecordOps (ops : List RepoOp) : Nat := ops.countP isRecordOp

theorem runOps_ids (ops : List RepoOp) :
    ∀ r : Repo, 0 ≤ r.counter → r.counter + countRecordOps ops < 2 ^ 63 →
      (runOps r ops).1.counter = r.counter + countRecordOps ops
        ∧ (∀ x ∈ (runOps r ops).2, r.counter < x)
        ∧ List.Sorted (· < ·) (runOps r ops).2 := by
  induction ops with
  | nil => intro r _ _; simp [runOps, countRecordOps]
  | cons op rest ih =>
    intro r h0 hbound
    cases op with
    | record =>
      have hcnt : countRecordOps (RepoOp.record :: rest) = countRecordOps rest + 1 := by
        simp [countRecordOps, List.countP_cons, isRecordOp]
      rw [hcnt] at hbound
      push_cast at hbound
      have hwrap : wrap64 (r.counter + 1) = r.counter + 1 :=
        wrap64_eq_self (by omega) (by omega)
      have hc' : (⟨r.counter + 1, r.data⟩ : Repo).counter = r.counter + 1 := rfl
      have hrun : runOps r (RepoOp.record :: rest)
          = ((runOps ⟨r.counter + 1, r.data⟩ rest).1,
             (r.counter + 1) :: (runOps ⟨r.counter + 1, r.data⟩ rest).2) := by
        simp [runOps, applyOp, recordRequest, hwrap]
      obtain ⟨ihc, ihmem, ihsort⟩ := ih ⟨r.counter + 1, r.data⟩
        (by rw [hc']; omega) (by rw [hc']; omega)
      rw [hc'] at ihc
      refine ⟨?_, ?_, ?_⟩
      · rw [hrun, hcnt] at *
        rw [ihc]
        push_cast
        ring
      · intro x hx
        rw [hrun] at hx
        simp only [List.mem_cons] at hx
        rcases hx with rfl | hxm
        · omega
        · have hgt := ihmem x hxm; rw [hc'] at hgt; omega
      · rw [hrun]
        rw [List.sorted_cons]
        refine ⟨fun b hb => ?_, ihsort⟩
        have hgt := ihmem b hb; rw [hc'] at hgt; omega
    | storeOp k v =>
      have hcnt : countRecordOps (RepoOp.storeOp k v :: rest) = countRecordOps rest := by
        simp [countRecordOps, List.countP_cons, isRecordOp]
      rw [hcnt] at hbound
      have hrun : runOps r (RepoOp.storeOp k v :: rest) = runOps (storeRec r k v) rest := by
        simp [runOps, applyOp]
      obtain ⟨ihc, ihmem, ihsort⟩ := ih (storeRec r k v) h0 hbound
      refine ⟨?_, ?_, ?_⟩
      · rw [hrun, hcnt, ihc]; rfl
      · intro x hx
        rw [hrun] at hx
        exact ihmem x hx
      · rw [hrun]; exact ihsort

theorem runOps_append_fst (l₁ l₂ : List RepoOp) :
    ∀ r : Repo, (runOps r (l₁ ++ l₂)).1 = (runOps (runOps r l₁).1 l₂).1 := by
  induction l₁ with
  | nil => intro r; simp [runOps]
  | cons op rest ih => intro r; simp [runOps, ih]

theorem keysOf_applyOp_mono (r : Repo) (op : RepoOp) (k : String)
    (hk : k ∈ keysOf r.data) : k ∈ keysOf (applyOp r op).1.data := by
  cases op with
  | record => simpa [applyOp, recordRequest] using hk
  | storeOp k' v => exact mem_keysOf_upsert_of_mem _ _ _ _ hk

theorem keysOf_runOps_mono (ops : List RepoOp) :
    ∀ (r : Repo) (k : String), k ∈ keysOf r.data →
      k ∈ keysOf (runOps r ops).1.data := by
  induction ops with
  | nil => intro r k hk; simpa [runOps] using hk
  | cons op rest ih =>
    intro r k hk
    simpa [runOps] using ih (applyOp r op).1 k (keysOf_applyOp_mono r op k hk)

/-- C1: for every trace of atomic repository operations (id allocations
interleaved with map stores) that stays within the `int64` range, the
ids handed out are strictly increasing, hence pairwise distinct, and
every key present in the map after a prefix of the trace is still
present after the whole trace (the map never loses a key). -/
theorem C1_ids_increasing_keys_persistent (l₁ l₂ : List RepoOp)
    (hbound : countRecordOps (l₁ ++ l₂) < 2 ^ 63) :
    List.Sorted (· < ·) (runOps newRepository (l₁ ++ l₂)).2
      ∧ (runOps newRepository (l₁ ++ l₂)).2.Nodup
      ∧ ∀ k ∈ keysOf (runOps newRepository l₁).1.data,
          k ∈ keysOf (runOps newRepository (l₁ ++ l₂)).1.data := by
  obtain ⟨_, _, hsort⟩ := runOps_ids (l₁ ++ l₂) newRepository (by simp [newRepository])
    (by simpa [newRepository] using hbound)
  refine ⟨hsort, hsort.nodup, ?_⟩
  intro k hk
  rw [runOps_append_fst]
  exact keysOf_runOps_mono l₂ _ k hk

/-- Witness for C1 on a concrete trace. -/
theorem C1_witness :
    countRecordOps ([RepoOp.record] ++ [RepoOp.record, RepoOp.record]) < 2 ^ 63
      ∧ (List.Sorted (· < ·)
            (runOps newRepository ([RepoOp.record] ++ [RepoOp.record, RepoOp.record])).2
          ∧ (runOps newRepository ([RepoOp.record] ++ [RepoOp.record, RepoOp.record])).2.Nodup
          ∧ ∀ k ∈ keysOf (runOps newRepository [RepoOp.record]).1.data,
              k ∈ keysOf (runOps newRepository
                ([RepoOp.record] ++ [RepoOp.record, RepoOp.record])).1.data) :=
  ⟨by decide, C1_ids_increasing_keys_persistent [RepoOp.record]
    [RepoOp.record, RepoOp.record] (by decide)⟩

/-! ## C2: pointer-level snapshot isolation

The Go maps of the good server and of the `sync.Map` server store
*pointers* (`map[string]*DataStruct`), so "copy isolation" is a claim
about aliasing.  We model the heap explicitly: addresses are naturals,
a heap maps addresses to `DataStruct` values, and the repository map
binds keys to addresses.  The snapshot loop of `GoodHandler` (lines
82-91) / `SyncMapHandler` (lines 295-307) allocates a fresh deep copy
of every entry; every later repository operation only allocates fresh
cells and never writes through an existing pointer. -/

abbrev Addr := Nat

structure Heap : Type where
  mem : List (Addr × DataStruct)
  next : Addr
deriving DecidableEq, Repr

def hLookup (h : Heap) (a : Addr) : Option DataStruct := lookupAL h.mem a

/-- Every bound address was allocated: it lies below the allocation
frontier. -/
def heapWF (h : Heap) : Prop := ∀ p ∈ h.mem, p.1 < h.next

/-- `&DataStruct{...}`: allocate a fresh cell. -/
def hAlloc (h : Heap) (v : DataStruct) : Heap × Addr :=
  (⟨(h.next, v) :: h.mem, h.next + 1⟩, h.next)

/-- The pointer-level repository (`counter int`, `data map[string]*DataStruct`). -/
structure RepoH : Type where
  counter : Int
  data : List (String × Addr)
deriving DecidableEq, Repr

/-- Addresses held by the repository map. -/
def addrsOf (m : List (String × Addr)) : List Addr := m.map Prod.snd

/-- The snapshot loop: for every entry, read it and allocate a fresh
deep copy (`dataCopy[k] = &DataStruct{...v}`); returns the extended heap
and the copy map. -/
def snapshotCopyH (h : Heap) : List (String × Addr) → Heap × List (String × Addr)
  | [] => (h, [])
  | (k, a) :: rest =>
    match hLookup h a with
    | none => snapshotCopyH h rest
    | some v =>
      let pa := hAlloc h (copyStruct v)
      let pr := snapshotCopyH pa.1 rest
      (pr.1, (k, pa.2) :: pr.2)

/-- The repository-mutating atomic operations any concurrent handler
invocation may perform after a snapshot was taken: allocate an id,
store a freshly allocated record under some key, or take another
snapshot (which also allocates). -/
inductive HOp : Type
  | record : HOp
  | storeNew (k : String) (v : DataStruct) : HOp
  | snap : HOp

def applyHOp : RepoH × Heap → HOp → RepoH × Heap
  | (r, h), .record => ({ r with counter := wrap64 (r.counter + 1) }, h)
  | (r, h), .storeNew k v =>
    let pa := hAlloc h v
    ({ r with data := upsert r.data k pa.2 }, pa.1)
  | (r, h), .snap => (r, (snapshotCopyH h r.data).1)

def runHOps (s : RepoH × Heap) (ops : List HOp) : RepoH × Heap :=
  ops.foldl applyHOp s

/-- Reading a snapshot: dereference every address it holds. -/
def readSnap (h : Heap) (snap : List (String × Addr)) :
    List (String × Option DataStruct) :=
  snap.map (fun ka => (ka.1, hLookup h ka.2))


theorem lookupAL_mem_keys {κ α : Type} [DecidableEq κ] {m : List (κ × α)} {k : κ}
    {v : α} (hl : lookupAL m k = some v) : k ∈ keysOf m := by
  induction m with
  | nil => simp [lookupAL] at hl
  | cons hd tl ih =>
    obtain ⟨k', v'⟩ := hd
    by_cases hk : k' = k
    · simp [keysOf, hk]
    · simp only [lookupAL, if_neg hk] at hl
      exact List.mem_cons_of_mem _ (ih hl)

theorem hLookup_lt_next {h : Heap} (hwf : heapWF h) {a : Addr} {v : DataStruct}
    (hl : hLookup h a = some v) : a < h.next := by
  have hmem : a ∈ keysOf h.mem := lookupAL_mem_keys hl
  simp only [keysOf, List.mem_map] at hmem
  obtain ⟨p, hp, hpa⟩ := hmem
  exact hpa ▸ hwf p hp

theorem hLookup_hAlloc (h : Heap) (w : DataStruct) (hwf : heapWF h) {a : Addr}
    {v : DataStruct} (hl : hLookup h a = some v) :
    hLookup (hAlloc h w).1 a = some v := by
  have hlt : a < h.next := hLookup_lt_next hwf hl
  have hne : ¬h.next = a := Nat.ne_of_gt hlt
  show lookupAL ((h.next, w) :: h.mem) a = some v
  simp only [lookupAL, if_neg hne]
  exact hl

theorem heapWF_hAlloc (h : Heap) (w : DataStruct) (hwf : heapWF h) :
    heapWF (hAlloc h w).1 := by
  intro p hp
  simp only [hAlloc, List.mem_cons] at hp
  rcases hp with rfl | hp
  · simp [hAlloc]
  · exact Nat.lt_succ_of_lt (hwf p hp)

theorem hAlloc_next_le (h : Heap) (w : DataStruct) : h.next ≤ (hAlloc h w).1.next :=
  Nat.le_succ _

theorem hLookup_hAlloc_self (h : Heap) (w : DataStruct) :
    hLookup (hAlloc h w).1 (hAlloc h w).2 = some w := by
  show lookupAL ((h.next, w) :: h.mem) h.next = some w
  simp [lookupAL]

theorem snapshotCopyH_props (l : List (String × Addr)) :
    ∀ h : Heap, heapWF h →
      heapWF (snapshotCopyH h l).1
        ∧ h.next ≤ (snapshotCopyH h l).1.next
        ∧ (∀ (a : Addr) (v : DataStruct), hLookup h a = some v →
            hLookup (snapshotCopyH h l).1 a = some v) := by
  induction l with
  | nil => intro h hwf; exact ⟨hwf, Nat.le_refl _, fun a v hv => hv⟩
  | cons ka rest ih =>
    intro h hwf
    obtain ⟨k, a⟩ := ka
    cases hv : hLookup h a with
    | none => simpa [snapshotCopyH, hv] using ih h hwf
    | some v =>
      have hwf1 := heapWF_hAlloc h (copyStruct v) hwf
      obtain ⟨ih1, ih2, ih3⟩ := ih (hAlloc h (copyStruct v)).1 hwf1
      refine ⟨by simpa [snapshotCopyH, hv] using ih1, ?_, ?_⟩
      · calc h.next ≤ (hAlloc h (copyStruct v)).1.next := hAlloc_next_le h _
          _ ≤ _ := by simpa [snapshotCopyH, hv] using ih2
      · intro a' v' hv'
        have step1 := hLookup_hAlloc h (copyStruct v) hwf hv'
        simpa [snapshotCopyH, hv] using ih3 a' v' step1

/-- When every repository address lies below the allocation frontier,
every address handed back by the snapshot loop is bound in the
resulting heap to a deep copy of the record the repository entry
pointed to. -/
theorem snapshotCopyH_bound (l : List (String × Addr)) :
    ∀ h : Heap, heapWF h → (∀ a ∈ addrsOf l, a < h.next) →
      ∀ p ∈ (snapshotCopyH h l).2,
        ∃ a v, (p.1, a) ∈ l ∧ hLookup h a = some v
          ∧ hLookup (snapshotCopyH h l).1 p.2 = some (copyStruct v) := by
  induction l with
  | nil => intro h _ _ p hp; simp [snapshotCopyH] at hp
  | cons ka rest ih =>
    intro h hwf hrepo p hp
    obtain ⟨k, a⟩ := ka
    have hrepo_rest : ∀ a' ∈ addrsOf rest, a' < h.next := by
      intro a' ha'
      exact hrepo a' (by simp [addrsOf] at ha' ⊢; exact Or.inr ha')
    cases hv : hLookup h a with
    | none =>
      simp only [snapshotCopyH, hv] at hp
      obtain ⟨a', v', hmem, hv', hl⟩ := ih h hwf hrepo_rest p hp
      exact ⟨a', v', List.mem_cons_of_mem _ hmem, hv',
        by simpa [snapshotCopyH, hv] using hl⟩
    | some v =>
      have hwf1 := heapWF_hAlloc h (copyStruct v) hwf
      have hrepo_rest1 : ∀ a' ∈ addrsOf rest, a' < (hAlloc h (copyStruct v)).1.next := by
        intro a' ha'
        exact Nat.lt_succ_of_lt (hrepo_rest a' ha')
      simp only [snapshotCopyH, hv, List.mem_cons] at hp
      obtain ⟨ihwf, ihnext, ihpres⟩ := snapshotCopyH_props rest _ hwf1
      rcases hp with rfl | hp
      · refine ⟨a, v, List.mem_cons_self _ _, hv, ?_⟩
        simp only [snapshotCopyH, hv]
        exact ihpres _ _ (hLookup_hAlloc_self h (copyStruct v))
      · obtain ⟨a', v', hmem, hv', hl⟩ := ih (hAlloc h (copyStruct v)).1 hwf1 hrepo_rest1 p hp
        have ha'lt : a' < h.next := hrepo_rest a' (by simp [addrsOf]; exact ⟨p.1, hmem⟩)
        have hne : ¬h.next = a' := Nat.ne_of_gt ha'lt
        have hpull : hLookup h a' = some v' := by
          have : hLookup (hAlloc h (copyStruct v)).1 a'
              = lookupAL h.mem a' := by
            show lookupAL ((h.next, copyStruct v) :: h.mem) a' = lookupAL h.mem a'
            simp [lookupAL, if_neg hne]
          rw [this] at hv'
          exact hv'
        exact ⟨a', v', List.mem_cons_of_mem _ hmem, hpull,
          by simpa [snapshotCopyH, hv] using hl⟩

theorem applyHOp_preserves (s : RepoH × Heap) (op : HOp) (hwf : heapWF s.2) :
    heapWF (applyHOp s op).2
      ∧ ∀ a v, hLookup s.2 a = some v → hLookup (applyHOp s op).2 a = some v := by
  obtain ⟨r, h⟩ := s
  cases op with
  | record => exact ⟨hwf, fun a v hv => hv⟩
  | storeNew k v =>
    exact ⟨heapWF_hAlloc h v hwf, fun a w hw => hLookup_hAlloc h v hwf hw⟩
  | snap =>
    obtain ⟨h1, _, h3⟩ := snapshotCopyH_props r.data h hwf
    exact ⟨h1, fun a w hw => h3 a w hw⟩

theorem runHOps_preserves (ops : List HOp) :
    ∀ s : RepoH × Heap, heapWF s.2 →
      heapWF (runHOps s ops).2
        ∧ ∀ a v, hLookup s.2 a = some v → hLookup (runHOps s ops).2 a = some v := by
  induction ops with
  | nil => intro s hwf; exact ⟨hwf, fun a v hv => hv⟩
  | cons op rest ih =>
    intro s hwf
    obtain ⟨h1, h2⟩ := applyHOp_preserves s op hwf
    obtain ⟨ih1, ih2⟩ := ih (applyHOp s op) h1
    exact ⟨by simpa [runHOps, List.foldl_cons] using ih1,
      fun a v hv => by
        have := ih2 a v (h2 a v hv)
        simpa [runHOps, List.foldl_cons] using this⟩

/-- C2: the snapshot taken by a handler does not alias live repository
state.  Starting from a well-formed heap, take the snapshot (a fresh
deep copy of every entry); then run an arbitrary sequence of later
repository operations — id allocations, stores of freshly allocated
records under any keys, further snapshots, by any handler.  Reading the
already-returned snapshot afterwards gives exactly what it gave
immediately after the copy; moreover each snapshot cell holds a deep
copy of the record its repository entry pointed to at snapshot time. -/
theorem C2_snapshot_isolation (r : RepoH) (h : Heap) (ops : List HOp)
    (hwf : heapWF h) (hrepo : ∀ a ∈ addrsOf r.data, a < h.next) :
    readSnap (runHOps (r, (snapshotCopyH h r.data).1) ops).2 (snapshotCopyH h r.data).2
        = readSnap (snapshotCopyH h r.data).1 (snapshotCopyH h r.data).2
      ∧ ∀ p ∈ (snapshotCopyH h r.data).2,
          ∃ a v, (p.1, a) ∈ r.data ∧ hLookup h a = some v
            ∧ hLookup (snapshotCopyH h r.data).1 p.2 = some (copyStruct v) := by
  obtain ⟨hwf1, _, _⟩ := snapshotCopyH_props r.data h hwf
  have hbound := snapshotCopyH_bound r.data h hwf hrepo
  obtain ⟨_, hpres⟩ :=
    runHOps_preserves ops (r, (snapshotCopyH h r.data).1) hwf1
  constructor
  · unfold readSnap
    apply List.map_congr_left
    intro p hp
    obtain ⟨a, v, _, _, hl⟩ := hbound p hp
    have := hpres p.2 (copyStruct v) hl
    rw [this, hl]
  · exact hbound

/-- Witness for C2: one stored record, snapshot it, then overwrite the
same key with a freshly allocated record. -/
theorem C2_witness :
    heapWF (⟨[(0, mkRecord 1 7 5)], 1⟩ : Heap)
      ∧ (∀ a ∈ addrsOf ([("request_1", 0)] : List (String × Addr)), a < 1)
      ∧ (readSnap
            (runHOps (⟨1, [("request_1", 0)]⟩,
              (snapshotCopyH ⟨[(0, mkRecord 1 7 5)], 1⟩ [("request_1", 0)]).1)
              [HOp.storeNew "request_1" (mkRecord 2 9 6)]).2
            (snapshotCopyH ⟨[(0, mkRecord 1 7 5)], 1⟩ [("request_1", 0)]).2
          = readSnap (snapshotCopyH ⟨[(0, mkRecord 1 7 5)], 1⟩ [("request_1", 0)]).1
              (snapshotCopyH ⟨[(0, mkRecord 1 7 5)], 1⟩ [("request_1", 0)]).2
        ∧ ∀ p ∈ (snapshotCopyH ⟨[(0, mkRecord 1 7 5)], 1⟩ [("request_1", 0)]).2,
            ∃ a v, (p.1, a) ∈ ([("request_1", 0)] : List (String × Addr))
              ∧ hLookup ⟨[(0, mkRecord 1 7 5)], 1⟩ a = some v
              ∧ hLookup (snapshotCopyH ⟨[(0, mkRecord 1 7 5)], 1⟩ [("request_1", 0)]).1 p.2
                  = some (copyStruct v)) :=
  ⟨by simp [heapWF], by simp [addrsOf],
    C2_snapshot_isolation ⟨1, [("request_1", 0)]⟩ ⟨[(0, mkRecord 1 7 5)], 1⟩
      [HOp.storeNew "request_1" (mkRecord 2 9 6)] (by simp [heapWF]) (by simp [addrsOf])⟩

/-! ## C3: the HeldLock strategy serializes whole handler bodies

`BadHandler` (bad_server.go lines 56-93) acquires `r.mu` at the top and
releases it with `defer` only when the handler returns.  We model the
server as a transition system over `n` concurrent handler invocations.
Program counters follow the source:
0 = before `r.mu.Lock()` (line 60); 1 = counter increment and map copy
(64-69); 2 = `time.Sleep` (73); 3 = CPU loop (76-79); 4 = map write
(82); 5 = response build and JSON encode (84-92); 6 = returned (the
deferred `Unlock` has run). -/

def updPC {n : Nat} (pc : Fin n → Nat) (t : Fin n) (v : Nat) : Fin n → Nat :=
  fun u => if u = t then v else pc u

structure BadSys (n : Nat) : Type where
  lock : Option (Fin n)
  pc : Fin n → Nat

def badInit (n : Nat) : BadSys n := ⟨none, fun _ => 0⟩

/-- One atomic step of some invocation `t` of `BadHandler`: acquire the
mutex (only when free), advance through the body (only while holding
the mutex), or return (running the deferred unlock). -/
inductive BadStep {n : Nat} : BadSys n → BadSys n → Prop
  | acquire (s : BadSys n) (t : Fin n) (hl : s.lock = none) (hp : s.pc t = 0) :
      BadStep s ⟨some t, updPC s.pc t 1⟩
  | work (s : BadSys n) (t : Fin n) (hl : s.lock = some t)
      (h1 : 1 ≤ s.pc t) (h2 : s.pc t ≤ 4) :
      BadStep s ⟨s.lock, updPC s.pc t (s.pc t + 1)⟩
  | ret (s : BadSys n) (t : Fin n) (hl : s.lock = some t) (hp : s.pc t = 5) :
      BadStep s ⟨none, updPC s.pc t 6⟩

def badReachable {n : Nat} (s : BadSys n) : Prop :=
  Relation.ReflTransGen BadStep (badInit n) s

/-- An invocation is inside the handler body: it has passed the `Lock()`
and has not yet returned (id allocation, snapshot copy, sleep, CPU
loop, final write, response encoding). -/
def inBody (p : Nat) : Prop := 1 ≤ p ∧ p ≤ 5

theorem badStep_inv {n : Nat} {s s' : BadSys n} (hstep : BadStep s s')
    (ih : ∀ t : Fin n, inBody (s.pc t) → s.lock = some t) :
    ∀ t : Fin n, inBody (s'.pc t) → s'.lock = some t := by
  cases hstep with
  | acquire t' hl hp =>
    intro t ht
    show some t' = some t
    by_cases htt : t = t'
    · rw [htt]
    · have ht' : inBody (updPC s.pc t' 1 t) := ht
      rw [show updPC s.pc t' 1 t = s.pc t from by simp [updPC, htt]] at ht'
      have hlk := ih t ht'
      rw [hl] at hlk
      exact absurd hlk (by simp)
  | work t' hl h1 h2 =>
    intro t ht
    show s.lock = some t
    by_cases htt : t = t'
    · rw [htt]; exact hl
    · have ht' : inBody (updPC s.pc t' (s.pc t' + 1) t) := ht
      rw [show updPC s.pc t' (s.pc t' + 1) t = s.pc t from by simp [updPC, htt]] at ht'
      exact ih t ht'
  | ret t' hl hp =>
    intro t ht
    show (none : Option (Fin n)) = some t
    by_cases htt : t = t'
    · have ht' : inBody (updPC s.pc t' 6 t) := ht
      rw [htt] at ht'
      rw [show updPC s.pc t' 6 t' = 6 from by simp [updPC]] at ht'
      exact absurd ht'.2 (by omega)
    · have ht' : inBody (updPC s.pc t' 6 t) := ht
      rw [show updPC s.pc t' 6 t = s.pc t from by simp [updPC, htt]] at ht'
      have hlk := ih t ht'
      rw [hl] at hlk
      injection hlk with he
      exact absurd he.symm htt

theorem badSys_inv {n : Nat} (s : BadSys n) (h : badReachable s) :
    ∀ t : Fin n, inBody (s.pc t) → s.lock = some t := by
  induction h with
  | refl => intro t ht; exact absurd ht.1 (by simp [badInit])
  | tail hsteps hstep ih => exact badStep_inv hstep ih

/-- C3: in every reachable state of the HeldLock server, an invocation
that is anywhere inside the handler body (id allocation, snapshot copy,
sleep, CPU loop, final write, response encoding) holds the mutex, and
at most one invocation is inside the body at a time: the whole body is
one critical section released only on return. -/
theorem C3_heldlock_serializes {n : Nat} (s : BadSys n) (h : badReachable s)
    (t₁ t₂ : Fin n) (h₁ : inBody (s.pc t₁)) (h₂ : inBody (s.pc t₂)) :
    s.lock = some t₁ ∧ t₁ = t₂ := by
  have k₁ := badSys_inv s h t₁ h₁
  have k₂ := badSys_inv s h t₂ h₂
  refine ⟨k₁, ?_⟩
  rw [k₁] at k₂
  injection k₂

/-- Witness for C3: one invocation just after acquiring the mutex. -/
theorem C3_witness :
    badReachable (⟨some 0, updPC (fun _ => 0) 0 1⟩ : BadSys 1)
      ∧ inBody ((⟨some 0, updPC (fun _ => 0) 0 1⟩ : BadSys 1).pc 0)
      ∧ ((⟨some 0, updPC (fun _ => 0) 0 1⟩ : BadSys 1).lock = some 0
          ∧ (0 : Fin 1) = 0) := by
  have hstep : BadStep (badInit 1) (⟨some 0, updPC (fun _ => 0) 0 1⟩ : BadSys 1) :=
    BadStep.acquire (badInit 1) 0 rfl rfl
  have hreach : badReachable (⟨some 0, updPC (fun _ => 0) 0 1⟩ : BadSys 1) :=
    Relation.ReflTransGen.single hstep
  have hbody : inBody ((⟨some 0, updPC (fun _ => 0) 0 1⟩ : BadSys 1).pc 0) := by
    simp [updPC, inBody]
  exact ⟨hreach, hbody, C3_heldlock_serializes _ hreach 0 0 hbody hbody⟩

/-! ## C4: I/O inside a critical section

Each handler body, in source order, as a list of instructions.  `lockI`
and `unlockI` are `mu.Lock()` / `mu.Unlock()`; `respond` is the
response write (`w.Header().Set` + `json.NewEncoder(w).Encode`), the
only I/O the handlers perform.  In `BadHandler` the deferred `Unlock`
runs when the function returns, i.e. *after* the response is encoded. -/

inductive Instr : Type
  | lockI : Instr
  | unlockI : Instr
  | work : Instr
  | sleepI : Instr
  | respond : Instr
deriving DecidableEq, Repr

/-- `BadHandler` (bad_server.go 56-93): Lock (60, with deferred Unlock),
copy (64-69), sleep (73), CPU loop (76-79), map write (82), response
encode (84-92), deferred Unlock at return. -/
def badHandlerProg : List Instr :=
  [.lockI, .work, .sleepI, .work, .work, .respond, .unlockI]

/-- `GoodHandler` (good_server.go 75-124): Lock (79), increment + copy
(80-91), Unlock (92), sleep (95), CPU loop (98-101), Lock (105), map
write (106-112), Unlock (113), response encode (115-123). -/
def goodHandlerProg : List Instr :=
  [.lockI, .work, .unlockI, .sleepI, .work, .lockI, .work, .unlockI, .respond]

/-- `SyncMapHandler` (part_002 288-337): atomic increment (292), Range
copy (295-307), sleep (310), CPU loop (313-316), Store (319-326),
response encode (328-336); no mutex at all. -/
def syncMapHandlerProg : List Instr :=
  [.work, .work, .sleepI, .work, .work, .respond]

def isIO : Instr → Bool
  | .respond => true
  | _ => false

/-- Number of locks held after executing a prefix of the handler. -/
def lockDepth (p : List Instr) : Nat :=
  p.foldl (fun d i => match i with
    | .lockI => d + 1
    | .unlockI => d - 1
    | _ => d) 0

/-- No instruction performing I/O executes while the mutex is held. -/
def noIOUnderLock (p : List Instr) : Prop :=
  ∀ k, (hk : k < p.length) → isIO (p.get ⟨k, hk⟩) = true → lockDepth (p.take k) = 0

instance (p : List Instr) : Decidable (noIOUnderLock p) := by
  unfold noIOUnderLock
  exact Nat.decidableBallLT _ _

/-- Counterexample to C4 as stated: in `BadHandler` the response
encoding (index 5) is I/O and executes with the mutex held (the
deferred unlock is index 6). -/
theorem C4_counterexample :
    ¬ noIOUnderLock badHandlerProg
      ∧ isIO (badHandlerProg.get ⟨5, by decide⟩) = true
      ∧ lockDepth (badHandlerProg.take 5) = 1 := by
  refine ⟨fun h => ?_, by decide, by decide⟩
  have := h 5 (by decide) (by decide)
  simp [badHandlerProg, lockDepth] at this

/-- C4 (amended): the MinimalLock and LockFree handlers never perform
I/O while the repository lock is held, but the HeldLock handler writes
the HTTP response while the mutex is still held, since the deferred
unlock only runs on return. -/
theorem C4_io_under_lock :
    noIOUnderLock goodHandlerProg
      ∧ noIOUnderLock syncMapHandlerProg
      ∧ ¬ noIOUnderLock badHandlerProg := by
  refine ⟨by decide, by decide, fun h => ?_⟩
  have := h 5 (by decide) (by decide)
  simp [badHandlerProg, lockDepth] at this

/-! ## C6-C9: the load-generation and measurement harness

`benchmarkServer` (part_001 lines 48-82) and `measureAverageLatency`
(part_001 lines 271-311).  A request's outcome is abstracted as
`Option Nat`: `some d` is a success taking `d` nanoseconds, `none` a
transport error/timeout.  `outcome i j` is the result of worker `i`'s
`j`-th request. -/

/-- One iteration of the worker loop of `measureAverageLatency` (lines
284-292): issue one `client.Get`; `if err == nil` read the body and
send the latency on the channel; there is no `else` branch — a failed
request is neither retried nor reported.  Result: (requests issued,
samples produced, errors reported). -/
def mealIter (o : Option Nat) : Nat × List Nat × List String :=
  match o with
  | some d => (1, [d], [])
  | none => (1, [], [])

/-- One iteration of the worker loop of `benchmarkServer` (lines
65-73): issue one `client.Get`; `if err != nil` call `b.Errorf` and
`continue`; otherwise read and close the body.  Result: (requests
issued, errors reported). -/
def benchIter (o : Option Nat) : Nat × List String :=
  match o with
  | some _ => (1, [])
  | none => (1, ["Request failed"])

/-- Accumulate one `measureAverageLatency` iteration. -/
def mealStep (f : Nat → Option Nat) (acc : Nat × List Nat × List String) (j : Nat) :
    Nat × List Nat × List String :=
  (acc.1 + (mealIter (f j)).1, acc.2.1 ++ (mealIter (f j)).2.1,
   acc.2.2 ++ (mealIter (f j)).2.2)

/-- Accumulate one `benchmarkServer` iteration. -/
def benchStep (f : Nat → Option Nat) (acc : Nat × List String) (j : Nat) :
    Nat × List String :=
  (acc.1 + (benchIter (f j)).1, acc.2 ++ (benchIter (f j)).2)

/-- A whole `measureAverageLatency` worker: `requestsPerGoroutine`
sequential iterations. -/
def mealWorker (f : Nat → Option Nat) (rpg : Nat) : Nat × List Nat × List String :=
  (List.range rpg).foldl (mealStep f) (0, [], [])

/-- A whole `benchmarkServer` worker. -/
def benchWorker (f : Nat → Option Nat) (rpg : Nat) : Nat × List String :=
  (List.range rpg).foldl (benchStep f) (0, [])

/-- Accumulate one whole worker of `measureAverageLatency`. -/
def mealJoin (outcome : Nat → Nat → Option Nat) (rpg : Nat)
    (acc : Nat × List Nat × List String) (i : Nat) : Nat × List Nat × List String :=
  (acc.1 + (mealWorker (outcome i) rpg).1, acc.2.1 ++ (mealWorker (outcome i) rpg).2.1,
   acc.2.2 ++ (mealWorker (outcome i) rpg).2.2)

/-- All `concurrency` workers of `measureAverageLatency`; the channel's
sample multiset is order-insensitive for the aggregation, so workers
are concatenated in index order. -/
def mealRun (outcome : Nat → Nat → Option Nat) (concurrency rpg : Nat) :
    Nat × List Nat × List String :=
  (List.range concurrency).foldl (mealJoin outcome rpg) (0, [], [])

/-- The aggregation loop of `measureAverageLatency` (lines 299-310):
`totalLatency += latency; count++` over the channel, then
`if count == 0 { return 0 }`, else
`float64(totalLatency.Milliseconds()) / float64(count)` — the summed
duration truncated to whole milliseconds, divided by the sample count. -/
def summarize (samples : List Nat) : ℚ :=
  let acc := samples.foldl (fun tc d => (tc.1 + d, tc.2 + 1)) ((0 : Nat), (0 : Nat))
  if acc.2 = 0 then 0
  else ((acc.1 / 1000000 : Nat) : ℚ) / (acc.2 : ℚ)

/-- `measureAverageLatency(url, concurrency, totalRequests)`:
`requestsPerGoroutine := totalRequests / concurrency` (a Go runtime
panic when `concurrency = 0`), then `concurrency` workers (the loop
`for i := 0; i < concurrency; i++` runs zero times when `concurrency`
is negative, and each inner loop runs zero times when the quota is
negative), then the aggregation. -/
def measureAverageLatency (concurrency totalRequests : Int)
    (outcome : Nat → Nat → Option Nat) : Except GoPanic ℚ :=
  match goDiv totalRequests concurrency with
  | .error e => .error e
  | .ok rpg => .ok (summarize (mealRun outcome concurrency.toNat rpg.toNat).2.1)

/-- The per-worker quotas of `benchmarkServer`: `concurrency` workers,
each assigned `totalRequests / concurrency` requests. -/
def workerLoads (totalRequests concurrency : Int) : Except GoPanic (List Nat) :=
  match goDiv totalRequests concurrency with
  | .error e => .error e
  | .ok rpg => .ok (List.replicate concurrency.toNat rpg.toNat)

theorem mealWorker_fold (f : Nat → Option Nat) (l : List Nat) :
    ∀ (g : Nat) (s : List Nat) (e : List String),
      l.foldl (mealStep f) (g, s, e) = (g + l.length, s ++ l.filterMap f, e) := by
  induction l with
  | nil => intro g s e; simp
  | cons j rest ih =>
    intro g s e
    rw [List.foldl_cons]
    cases hj : f j with
    | none =>
      have hF : mealStep f (g, s, e) j = (g + 1, s, e) := by
        simp [mealStep, mealIter, hj]
      rw [hF, ih]
      simp [List.filterMap_cons, hj, List.append_assoc]
      omega
    | some d =>
      have hF : mealStep f (g, s, e) j = (g + 1, s ++ [d], e) := by
        simp [mealStep, mealIter, hj]
      rw [hF, ih]
      simp [List.filterMap_cons, hj, List.append_assoc]
      omega

theorem mealWorker_spec (f : Nat → Option Nat) (rpg : Nat) :
    mealWorker f rpg = (rpg, (List.range rpg).filterMap f, []) := by
  unfold mealWorker
  rw [mealWorker_fold]
  simp

theorem benchWorker_fold (f : Nat → Option Nat) (l : List Nat) :
    ∀ (g : Nat) (e : List String),
      l.foldl (benchStep f) (g, e)
        = (g + l.length,
           e ++ (l.filter (fun j => (f j).isNone)).map (fun _ => "Request failed")) := by
  induction l with
  | nil => intro g e; simp
  | cons j rest ih =>
    intro g e
    rw [List.foldl_cons]
    cases hj : f j with
    | none =>
      have hF : benchStep f (g, e) j = (g + 1, e ++ ["Request failed"]) := by
        simp [benchStep, benchIter, hj]
      rw [hF, ih]
      simp [List.filter_cons, hj, List.append_assoc]
      omega
    | some d =>
      have hF : benchStep f (g, e) j = (g + 1, e) := by
        simp [benchStep, benchIter, hj]
      rw [hF, ih]
      simp [List.filter_cons, hj, List.append_assoc]
      omega

theorem benchWorker_spec (f : Nat → Option Nat) (rpg : Nat) :
    benchWorker f rpg
      = (rpg, ((List.range rpg).filter (fun j => (f j).isNone)).map
          (fun _ => "Request failed")) := by
  unfold benchWorker
  rw [benchWorker_fold]
  simp

theorem mealRun_fold (outcome : Nat → Nat → Option Nat) (rpg : Nat) (l : List Nat) :
    ∀ (g : Nat) (s : List Nat) (e : List String),
      l.foldl (mealJoin outcome rpg) (g, s, e)
        = (g + l.length * rpg,
           s ++ l.flatMap (fun i => (List.range rpg).filterMap (outcome i)), e) := by
  induction l with
  | nil => intro g s e; simp
  | cons i rest ih =>
    intro g s e
    rw [List.foldl_cons]
    have hF : mealJoin outcome rpg (g, s, e) i
        = (g + rpg, s ++ (List.range rpg).filterMap (outcome i), e) := by
      simp [mealJoin, mealWorker_spec]
    rw [hF, ih]
    simp [List.flatMap_cons, List.append_assoc]
    ring

theorem mealRun_spec (outcome : Nat → Nat → Option Nat) (c rpg : Nat) :
    mealRun outcome c rpg
      = (c * rpg,
         (List.range c).flatMap (fun i => (List.range rpg).filterMap (outcome i)),
         []) := by
  unfold mealRun
  rw [mealRun_fold]
  simp

/-- C6: for nonnegative `totalRequests` and positive `concurrency`, the
load generator hands each of the `concurrency` workers exactly
⌊totalRequests / concurrency⌋ requests; the total issued is
`concurrency * ⌊totalRequests / concurrency⌋`, and the remainder of the
integer division is dropped, not redistributed to any worker. -/
theorem C6_partition_drops_remainder (t c : Int) (ht : 0 ≤ t) (hc : 1 ≤ c) :
    ∃ loads : List Nat, workerLoads t c = .ok loads
      ∧ loads.length = c.toNat
      ∧ (∀ l ∈ loads, (l : Int) = t / c)
      ∧ (loads.sum : Int) = c * (t / c)
      ∧ t - (loads.sum : Int) = t % c := by
  have hc0 : c ≠ 0 := by omega
  have htd : Int.tdiv t c = t / c := Int.tdiv_eq_ediv ht (by omega)
  have hdnn : (0 : Int) ≤ Int.tdiv t c := htd ▸ Int.ediv_nonneg ht (by omega)
  have hq : ((Int.tdiv t c).toNat : Int) = t / c := by
    rw [Int.toNat_of_nonneg hdnn]; exact htd
  have hsum : ((List.replicate c.toNat (Int.tdiv t c).toNat).sum : Int) = c * (t / c) := by
    rw [List.sum_replicate, smul_eq_mul]
    push_cast
    rw [hq, Int.toNat_of_nonneg (by omega)]
  refine ⟨List.replicate c.toNat (Int.tdiv t c).toNat, ?_, by simp, ?_, hsum, ?_⟩
  · simp [workerLoads, goDiv, hc0]
  · intro l hl
    rw [List.eq_of_mem_replicate hl]
    exact hq
  · rw [hsum]
    have := Int.ediv_add_emod t c
    omega

/-- Witness for C6 at 10 requests over 3 workers (remainder 1 dropped). -/
theorem C6_witness :
    (0 : Int) ≤ 10 ∧ (1 : Int) ≤ 3
      ∧ ∃ loads : List Nat, workerLoads 10 3 = .ok loads
          ∧ loads.length = (3 : Int).toNat
          ∧ (∀ l ∈ loads, (l : Int) = 10 / 3)
          ∧ (loads.sum : Int) = 3 * ((10 : Int) / 3)
          ∧ (10 : Int) - (loads.sum : Int) = (10 : Int) % 3 :=
  ⟨by decide, by decide, C6_partition_drops_remainder 10 3 (by decide) (by decide)⟩

theorem summarize_fold (samples : List Nat) :
    ∀ a b : Nat,
      samples.foldl (fun tc d => (tc.1 + d, tc.2 + 1)) (a, b)
        = (a + samples.sum, b + samples.length) := by
  induction samples with
  | nil => intro a b; simp
  | cons d rest ih =>
    intro a b
    rw [List.foldl_cons, ih]
    simp [List.sum_cons]
    omega

/-- C7: on a non-empty sample set `summarize` returns the arithmetic
mean — the summed duration truncated to milliseconds, divided by the
number of samples, whose cast is nonzero so the division is well
defined — and on the empty sample set it returns 0 without reaching
the division. -/
theorem C7_summarize_mean (samples : List Nat) (hne : samples ≠ []) :
    summarize samples = ((samples.sum / 1000000 : Nat) : ℚ) / (samples.length : ℚ)
      ∧ (samples.length : ℚ) ≠ 0
      ∧ summarize [] = 0 := by
  have hlen : samples.length ≠ 0 := by
    intro h
    exact hne (List.eq_nil_of_length_eq_zero h)
  refine ⟨?_, by exact_mod_cast hlen, by simp [summarize]⟩
  unfold summarize
  rw [summarize_fold]
  simp [hlen]

/-- Witness for C7 on two samples of 2ms and 4ms. -/
theorem C7_witness :
    ([2000000, 4000000] : List Nat) ≠ []
      ∧ (summarize [2000000, 4000000]
            = ((([2000000, 4000000] : List Nat).sum / 1000000 : Nat) : ℚ)
                / (([2000000, 4000000] : List Nat).length : ℚ)
          ∧ (([2000000, 4000000] : List Nat).length : ℚ) ≠ 0
          ∧ summarize [] = 0) :=
  ⟨by decide, C7_summarize_mean [2000000, 4000000] (by decide)⟩

/-- Counterexample to C8 as stated: a run of `measureAverageLatency`
with one worker and one request whose `client.Get` fails issues the
request and produces no sample — but also reports no error signal at
all to the caller (the error log stays empty). -/
theorem C8_counterexample :
    (mealRun (fun _ _ => none) 1 1).1 = 1
      ∧ (mealRun (fun _ _ => none) 1 1).2.1 = []
      ∧ (mealRun (fun _ _ => none) 1 1).2.2 = [] := by
  refine ⟨rfl, rfl, rfl⟩

/-- C8 (amended): in both worker loops a failed request contributes no
timing sample (samples are exactly the successful outcomes) and is
never retried (each worker issues exactly its quota, regardless of
failures); `benchmarkServer` reports each failure to the caller via
`b.Errorf`, but `measureAverageLatency` silently discards failures and
reports no error signal. -/
theorem C8_failure_handling (outcome : Nat → Nat → Option Nat) (c rpg : Nat) :
    (∀ i, (mealWorker (outcome i) rpg).1 = rpg)
      ∧ (∀ i, (mealWorker (outcome i) rpg).2.1 = (List.range rpg).filterMap (outcome i))
      ∧ (∀ i, (mealWorker (outcome i) rpg).2.2 = [])
      ∧ (∀ i, (benchWorker (outcome i) rpg).1 = rpg)
      ∧ (∀ i, (benchWorker (outcome i) rpg).2.length
            = ((List.range rpg).filter (fun j => (outcome i j).isNone)).length)
      ∧ (mealRun outcome c rpg).1 = c * rpg
      ∧ (mealRun outcome c rpg).2.2 = [] := by
  refine ⟨fun i => by simp [mealWorker_spec], fun i => by simp [mealWorker_spec],
    fun i => by simp [mealWorker_spec], fun i => by simp [benchWorker_spec],
    fun i => by simp [benchWorker_spec], by simp [mealRun_spec], by simp [mealRun_spec]⟩

/-- Counterexample to C9 as stated: at the caller-input violation
`totalRequests = 0` (with concurrency 1) the measurement silently
returns the zero statistic instead of a defined rejection, and at
`concurrency = 0` it panics with a division by zero instead of a
defined rejection. -/
theorem C9_counterexample :
    measureAverageLatency 1 0 (fun _ _ => some 5000000) = .ok 0
      ∧ measureAverageLatency 0 5 (fun _ _ => some 5000000)
          = .error .divideByZero := by
  refine ⟨rfl, rfl⟩

/-- C9 (amended): the measurement operation performs no input
validation: `concurrency = 0` hits the Go integer division by zero and
panics; `concurrency < 0`, or `totalRequests = 0` with positive
concurrency, runs zero requests and silently returns the zero
statistic with no error. -/
theorem C9_no_input_validation (c t : Int) (outcome : Nat → Nat → Option Nat) :
    (c = 0 → measureAverageLatency c t outcome = .error .divideByZero)
      ∧ (c < 0 → measureAverageLatency c t outcome = .ok 0)
      ∧ (1 ≤ c → t = 0 → measureAverageLatency c t outcome = .ok 0) := by
  refine ⟨?_, ?_, ?_⟩
  · intro hc
    subst hc
    simp [measureAverageLatency, goDiv]
  · intro hc
    have hc0 : c ≠ 0 := by omega
    have hcn : c.toNat = 0 := Int.toNat_of_nonpos (by omega)
    simp [measureAverageLatency, goDiv, hc0, hcn, mealRun_spec, summarize]
  · intro hc ht
    subst ht
    have hc0 : c ≠ 0 := by omega
    have hz : Int.tdiv 0 c = 0 := Int.zero_tdiv c
    have hfm : ((List.range c.toNat).flatMap fun i => ([] : List Nat)) = [] := by
      induction List.range c.toNat with
      | nil => rfl
      | cons x xs ih => simp only [List.flatMap_cons, List.nil_append]; exact ih
    simp [measureAverageLatency, goDiv, hc0, hz, mealRun_spec, summarize, hfm]

/-- Witness for C9 at the three kinds of invalid input. -/
theorem C9_witness :
    measureAverageLatency 0 7 (fun _ _ => some 1) = .error .divideByZero
      ∧ measureAverageLatency (-2) 7 (fun _ _ => some 1) = .ok 0
      ∧ measureAverageLatency 3 0 (fun _ _ => some 1) = .ok 0 :=
  ⟨(C9_no_input_validation 0 7 (fun _ _ => some 1)).1 rfl,
   (C9_no_input_validation (-2) 7 (fun _ _ => some 1)).2.1 (by decide),
   (C9_no_input_validation 3 0 (fun _ _ => some 1)).2.2 (by decide) rfl⟩

/-! ## C5: one fresh record per request; stats counts N after N requests -/

/-- `SyncMapHandler`, sequentially: atomic counter increment, `Range`
deep copy, sleep, CPU loop, `Store`.  On the sequential state it
coincides with `GoodHandler`. -/
def syncMapHandle (r : Repo) (now : Nat) : Repo × Int × Int :=
  let currentCounter := wrap64 (r.counter + 1)
  let r₁ : Repo := { r with counter := currentCounter }
  let _dataCopy := snapshotCopy r₁.data
  let result := cpuResult
  let key := mkKey currentCounter
  (storeRec r₁ key (mkRecord currentCounter result now), currentCounter, result)

theorem syncMapHandle_eq_goodHandle : syncMapHandle = goodHandle := rfl

/-- Well-formedness of the sequentially reached repository: the counter
counts the stored records, and every key is the key of some already
allocated id. -/
def goodInv (r : Repo) : Prop :=
  0 ≤ r.counter
    ∧ (r.data.length : Int) = r.counter
    ∧ ∀ k ∈ keysOf r.data, ∃ i : Int, 1 ≤ i ∧ i ≤ r.counter ∧ k = mkKey i

theorem goodInv_new : goodInv newRepository := by
  refine ⟨le_refl 0, rfl, ?_⟩
  intro k hk
  simp [newRepository, keysOf] at hk

theorem mkKey_fresh {r : Repo} (hinv : goodInv r) :
    mkKey (r.counter + 1) ∉ keysOf r.data := by
  intro hmem
  obtain ⟨h0, _, hkeys⟩ := hinv
  obtain ⟨i, hi1, hi2, hk⟩ := hkeys _ hmem
  have := mkKey_inj (i := r.counter + 1) (j := i) (by omega) hi1 hk
  omega

theorem goodHandle_step (r : Repo) (now : Nat) (hinv : goodInv r)
    (hb : r.counter + 1 < 2 ^ 63) :
    (goodHandle r now).1.counter = r.counter + 1
      ∧ (goodHandle r now).2.1 = r.counter + 1
      ∧ (goodHandle r now).2.2 = cpuResult
      ∧ (goodHandle r now).1.data
          = r.data ++ [(mkKey (r.counter + 1), mkRecord (r.counter + 1) cpuResult now)]
      ∧ goodInv (goodHandle r now).1 := by
  obtain ⟨h0, hlen, hkeys⟩ := hinv
  have hwrap : wrap64 (r.counter + 1) = r.counter + 1 :=
    wrap64_eq_self (by omega) hb
  have hfresh : mkKey (r.counter + 1) ∉ keysOf r.data := mkKey_fresh ⟨h0, hlen, hkeys⟩
  have hup : upsert r.data (mkKey (r.counter + 1))
      (mkRecord (r.counter + 1) cpuResult now)
      = r.data ++ [(mkKey (r.counter + 1), mkRecord (r.counter + 1) cpuResult now)] :=
    upsert_of_not_mem _ _ _ hfresh
  have hdata : (goodHandle r now).1.data
      = r.data ++ [(mkKey (r.counter + 1), mkRecord (r.counter + 1) cpuResult now)] := by
    simp [goodHandle, recordRequest, storeRec, hwrap, hup]
  have hcnt : (goodHandle r now).1.counter = r.counter + 1 := by
    simp [goodHandle, recordRequest, storeRec, hwrap]
  refine ⟨hcnt, by simp [goodHandle, recordRequest, hwrap],
    by simp [goodHandle, recordRequest], hdata, ?_, ?_, ?_⟩
  · rw [hcnt]; omega
  · rw [hcnt, hdata]
    simp only [List.length_append, List.length_singleton]
    push_cast
    omega
  · intro k hk
    rw [hdata] at hk
    simp only [keysOf, List.map_append, List.map_cons, List.map_nil,
      List.mem_append, List.mem_singleton] at hk
    rw [hcnt]
    rcases hk with hk | hk
    · obtain ⟨i, hi1, hi2, hkk⟩ := hkeys k hk
      exact ⟨i, hi1, by omega, hkk⟩
    · exact ⟨r.counter + 1, by omega, le_refl _, hk⟩

/-- Sequentially serve one request per timestamp in the list. -/
def iterGood (r : Repo) : List Nat → Repo
  | [] => r
  | now :: rest => iterGood (goodHandle r now).1 rest

theorem iterGood_inv (nows : List Nat) :
    ∀ r : Repo, goodInv r → r.counter + nows.length < 2 ^ 63 →
      goodInv (iterGood r nows)
        ∧ (iterGood r nows).counter = r.counter + nows.length := by
  induction nows with
  | nil => intro r hinv _; exact ⟨hinv, by simp [iterGood]⟩
  | cons now rest ih =>
    intro r hinv hb
    have h0 := hinv.1
    simp only [List.length_cons] at hb
    push_cast at hb
    obtain ⟨hc, _, _, _, hinv'⟩ := goodHandle_step r now hinv (by omega)
    obtain ⟨ih1, ih2⟩ := ih (goodHandle r now).1 hinv' (by rw [hc]; omega)
    refine ⟨ih1, ?_⟩
    show (iterGood (goodHandle r now).1 rest).counter = _
    rw [ih2, hc]
    simp only [List.length_cons]
    push_cast
    ring

/-- Well-formedness for the bad server's repository. -/
def badRepoInv (r : BadRepo) : Prop :=
  0 ≤ r.counter
    ∧ (r.data.length : Int) = r.counter
    ∧ ∀ k ∈ keysOf r.data, ∃ i : Int, 1 ≤ i ∧ i ≤ r.counter ∧ k = mkKey i

theorem badRepoInv_new : badRepoInv newBadRepository := by
  refine ⟨le_refl 0, rfl, ?_⟩
  intro k hk
  simp [newBadRepository, keysOf] at hk

theorem badHandle_step (r : BadRepo) (hinv : badRepoInv r)
    (hb : r.counter + 1 < 2 ^ 63) :
    (badHandle r).1.counter = r.counter + 1
      ∧ (badHandle r).2.1 = r.counter + 1
      ∧ (badHandle r).2.2 = cpuResult
      ∧ (badHandle r).1.data = r.data ++ [(mkKey (r.counter + 1), cpuResult)]
      ∧ badRepoInv (badHandle r).1 := by
  obtain ⟨h0, hlen, hkeys⟩ := hinv
  have hwrap : wrap64 (r.counter + 1) = r.counter + 1 :=
    wrap64_eq_self (by omega) hb
  have hfresh : mkKey (r.counter + 1) ∉ keysOf r.data := by
    intro hmem
    obtain ⟨i, hi1, hi2, hk⟩ := hkeys _ hmem
    have := mkKey_inj (i := r.counter + 1) (j := i) (by omega) hi1 hk
    omega
  have hup : upsert r.data (mkKey (r.counter + 1)) cpuResult
      = r.data ++ [(mkKey (r.counter + 1), cpuResult)] :=
    upsert_of_not_mem _ _ _ hfresh
  have hdata : (badHandle r).1.data = r.data ++ [(mkKey (r.counter + 1), cpuResult)] := by
    simp [badHandle, hwrap, hup]
  have hcnt : (badHandle r).1.counter = r.counter + 1 := by
    simp [badHandle, hwrap]
  refine ⟨hcnt, by simp [badHandle, hwrap], by simp [badHandle], hdata, ?_, ?_, ?_⟩
  · rw [hcnt]; omega
  · rw [hcnt, hdata]
    simp only [List.length_append, List.length_singleton]
    push_cast
    omega
  · intro k hk
    rw [hdata] at hk
    simp only [keysOf, List.map_append, List.map_cons, List.map_nil,
      List.mem_append, List.mem_singleton] at hk
    rw [hcnt]
    rcases hk with hk | hk
    · obtain ⟨i, hi1, hi2, hkk⟩ := hkeys k hk
      exact ⟨i, hi1, by omega, hkk⟩
    · exact ⟨r.counter + 1, by omega, le_refl _, hk⟩

def iterBad (r : BadRepo) : Nat → BadRepo
  | 0 => r
  | n + 1 => iterBad (badHandle r).1 n

def statsBad (r : BadRepo) : Int × Nat := (r.counter, r.data.length)

theorem iterBad_inv (n : Nat) :
    ∀ r : BadRepo, badRepoInv r → r.counter + n < 2 ^ 63 →
      badRepoInv (iterBad r n) ∧ (iterBad r n).counter = r.counter + n := by
  induction n with
  | zero => intro r hinv _; exact ⟨hinv, by simp [iterBad]⟩
  | succ n ih =>
    intro r hinv hb
    have h0 := hinv.1
    push_cast at hb
    obtain ⟨hc, _, _, _, hinv'⟩ := badHandle_step r hinv (by omega)
    obtain ⟨ih1, ih2⟩ := ih (badHandle r).1 hinv' (by rw [hc]; omega)
    refine ⟨ih1, ?_⟩
    show (iterBad (badHandle r).1 n).counter = _
    rw [ih2, hc]
    push_cast
    ring

/-- A freshly allocated record cell is not referenced by the repository
map (no mutable sub-object shared between the stored record and any
existing repository state). -/
theorem hAlloc_fresh (h : Heap) (v : DataStruct) (m : List (String × Addr))
    (hrepo : ∀ a ∈ addrsOf m, a < h.next) : (hAlloc h v).2 ∉ addrsOf m := by
  intro hmem
  exact absurd (hrepo _ hmem) (lt_irrefl h.next)

/-- C5: each handler invocation, under each of the three strategies,
appends exactly one new record, keyed by the allocated id
(`request_<id>`), whose counter field is the CPU loop's result; the
record is stored through a freshly allocated pointer shared with no
existing repository state; consequently after N completed requests
from a fresh repository, `stats()` reports N total requests and N
records. -/
theorem C5_one_record_per_request (r : Repo) (b : BadRepo) (now : Nat)
    (nows : List Nat) (n : Nat) (hh : Heap) (v : DataStruct) (m : List (String × Addr))
    (hrinv : goodInv r) (hrb : r.counter + 1 < 2 ^ 63)
    (hbinv : badRepoInv b) (hbb : b.counter + 1 < 2 ^ 63)
    (hN : (nows.length : Int) < 2 ^ 63) (hn : (n : Int) < 2 ^ 63)
    (hrepo : ∀ a ∈ addrsOf m, a < hh.next) :
    ((goodHandle r now).2.1 = r.counter + 1
      ∧ (goodHandle r now).1.data
          = r.data ++ [(mkKey (r.counter + 1), mkRecord (r.counter + 1) cpuResult now)]
      ∧ (mkRecord (r.counter + 1) cpuResult now).counter = cpuResult
      ∧ syncMapHandle = goodHandle)
    ∧ ((badHandle b).2.1 = b.counter + 1
      ∧ (badHandle b).1.data = b.data ++ [(mkKey (b.counter + 1), cpuResult)])
    ∧ stats (iterGood newRepository nows) = ((nows.length : Int), nows.length)
    ∧ statsBad (iterBad newBadRepository n) = ((n : Int), n)
    ∧ (hAlloc hh v).2 ∉ addrsOf m := by
  obtain ⟨hgc, hgid, _, hgdata, _⟩ := goodHandle_step r now hrinv hrb
  obtain ⟨hbc, hbid, _, hbdata, _⟩ := badHandle_step b hbinv hbb
  obtain ⟨hgi, hgcnt⟩ := iterGood_inv nows newRepository goodInv_new
    (by show (0 : Int) + (nows.length : Int) < 2 ^ 63; omega)
  obtain ⟨hbi, hbcnt⟩ := iterBad_inv n newBadRepository badRepoInv_new
    (by show (0 : Int) + (n : Int) < 2 ^ 63; omega)
  refine ⟨⟨hgid, hgdata, ?_, syncMapHandle_eq_goodHandle⟩,
    ⟨hbid, hbdata⟩, ?_, ?_, hAlloc_fresh hh v m hrepo⟩
  · simp only [mkRecord]
  · have hgcnt2 : (iterGood newRepository nows).counter = (nows.length : Int) := by
      rw [hgcnt]
      show (0 : Int) + _ = _
      ring
    have hlen : ((iterGood newRepository nows).data.length : Int)
        = (nows.length : Int) := by
      rw [hgi.2.1, hgcnt2]
    have hlenN : (iterGood newRepository nows).data.length = nows.length := by
      exact_mod_cast hlen
    simp only [stats]
    rw [hgcnt2, hlenN]
  · have hbcnt2 : (iterBad newBadRepository n).counter = (n : Int) := by
      rw [hbcnt]
      show (0 : Int) + _ = _
      ring
    have hlen : ((iterBad newBadRepository n).data.length : Int) = (n : Int) := by
      rw [hbi.2.1, hbcnt2]
    have hlenN : (iterBad newBadRepository n).data.length = n := by
      exact_mod_cast hlen
    simp only [statsBad]
    rw [hbcnt2, hlenN]

/-- Witness for C5: fresh repositories, a two-request sequential run on
each server, and a one-record heap. -/
theorem C5_witness :
    goodInv newRepository ∧ newRepository.counter + 1 < 2 ^ 63
      ∧ badRepoInv newBadRepository ∧ newBadRepository.counter + 1 < 2 ^ 63
      ∧ ((([3, 4] : List Nat).length : Int) < 2 ^ 63) ∧ (((2 : Nat) : Int) < 2 ^ 63)
      ∧ (∀ a ∈ addrsOf ([("request_1", 0)] : List (String × Addr)),
          a < (⟨[(0, mkRecord 1 7 5)], 1⟩ : Heap).next)
      ∧ (((goodHandle newRepository 9).2.1 = newRepository.counter + 1
          ∧ (goodHandle newRepository 9).1.data
              = newRepository.data ++ [(mkKey (newRepository.counter + 1),
                  mkRecord (newRepository.counter + 1) cpuResult 9)]
          ∧ (mkRecord (newRepository.counter + 1) cpuResult 9).counter = cpuResult
          ∧ syncMapHandle = goodHandle)
        ∧ ((badHandle newBadRepository).2.1 = newBadRepository.counter + 1
          ∧ (badHandle newBadRepository).1.data
              = newBadRepository.data
                  ++ [(mkKey (newBadRepository.counter + 1), cpuResult)])
        ∧ stats (iterGood newRepository [3, 4])
            = ((([3, 4] : List Nat).length : Int), ([3, 4] : List Nat).length)
        ∧ statsBad (iterBad newBadRepository 2) = (((2 : Nat) : Int), (2 : Nat))
        ∧ (hAlloc ⟨[(0, mkRecord 1 7 5)], 1⟩ (mkRecord 2 8 6)).2
            ∉ addrsOf ([("request_1", 0)] : List (String × Addr))) :=
  ⟨goodInv_new, by decide, badRepoInv_new, by decide, by decide, by decide,
    by simp [addrsOf],
    C5_one_record_per_request newRepository newBadRepository 9 [3, 4] 2
      ⟨[(0, mkRecord 1 7 5)], 1⟩ (mkRecord 2 8 6) [("request_1", 0)]
      goodInv_new (by decide) badRepoInv_new (by decide) (by decide) (by decide)
      (by simp [addrsOf])⟩

/-! ## C10: shape invariant of stored records -/

theorem mem_upsert {κ α : Type} [DecidableEq κ] (m : List (κ × α)) (k : κ) (v : α)
    (p : κ × α) (hp : p ∈ upsert m k v) : p ∈ m ∨ p = (k, v) := by
  induction m with
  | nil => simpa [upsert] using hp
  | cons hd tl ih =>
    obtain ⟨k', v'⟩ := hd
    by_cases hk : k' = k
    · simp only [upsert, if_pos hk] at hp
      rcases List.mem_cons.1 hp with h | h
      · exact Or.inr h
      · exact Or.inl (List.mem_cons_of_mem _ h)
    · simp only [upsert, if_neg hk] at hp
      rcases List.mem_cons.1 hp with h | h
      · exact Or.inl (h ▸ List.mem_cons_self _ _)
      · rcases ih h with h' | h'
        · exact Or.inl (List.mem_cons_of_mem _ h')
        · exact Or.inr h'

/-- Abstract reachability of the MinimalLock (`GoodHandler`) and
LockFree (`SyncMapHandler`) repository state under arbitrary concurrent
interleavings: any number of atomic id allocations and handler stores.
Every store either handler performs writes `mkRecord i result now`
under key `mkKey i` for the id `i` the invocation holds
(good_server.go lines 104-112, part_002 lines 319-326); snapshot and
stats reads do not change the state. -/
inductive HandlerReach : Repo → Prop
  | init : HandlerReach newRepository
  | record {r : Repo} : HandlerReach r → HandlerReach (recordRequest r).1
  | handlerStore {r : Repo} (i result : Int) (now : Nat) :
      HandlerReach r → HandlerReach (storeRec r (mkKey i) (mkRecord i result now))

/-- C10: in every reachable repository state of the MinimalLock and
LockFree servers, every stored record's Identifier field equals its map
key `request_<i>`, its Name field is `Request <i>` for the same `i`,
and its IsActive flag is true. -/
theorem C10_record_shape (r : Repo) (h : HandlerReach r) :
    ∀ p ∈ r.data, ∃ i : Int, p.1 = mkKey i ∧ p.2.identifier = p.1
      ∧ p.2.name = mkName i ∧ p.2.isActive = true := by
  induction h with
  | init => intro p hp; simp [newRepository] at hp
  | record hr ih => intro p hp; exact ih p hp
  | handlerStore i result now hr ih =>
    intro p hp
    rcases mem_upsert _ _ _ p hp with hmem | hmem
    · exact ih p hmem
    · subst hmem
      exact ⟨i, rfl, rfl, rfl, rfl⟩

/-- Witness for C10: the state after one handler store. -/
theorem C10_witness :
    HandlerReach (storeRec newRepository (mkKey 1) (mkRecord 1 7 5))
      ∧ ∀ p ∈ (storeRec newRepository (mkKey 1) (mkRecord 1 7 5)).data,
          ∃ i : Int, p.1 = mkKey i ∧ p.2.identifier = p.1
            ∧ p.2.name = mkName i ∧ p.2.isActive = true :=
  ⟨HandlerReach.handlerStore 1 7 5 HandlerReach.init,
   C10_record_shape _ (HandlerReach.handlerStore 1 7 5 HandlerReach.init)⟩
